import Mathlib

/-!
Verification of the Quick Fit memory allocator (`src/MIniProject.py`,
class `QuickFit`).

The Python implementation keeps two insertion-ordered dictionaries:
`memory_blocks` (size class → ordered list of free block names) and
`allocated_processes` (process id → {block, size}).  Python 3.7+ dicts
preserve insertion order, so we embed them as association lists:
assigning to an existing key replaces its value in place, assigning to a
fresh key appends at the end, and deletion removes the key's entry.
-/

/-- Lookup in an insertion-ordered dictionary (Python `d[k]` / `k in d`). -/
def getKey {α β : Type} [DecidableEq α] (k : α) : List (α × β) → Option β
  | [] => none
  | (k', v) :: rest => if k = k' then some v else getKey k rest

/-- Assignment `d[k] = v` on an insertion-ordered dictionary: replace the
value in place if the key exists, otherwise append the new entry at the end. -/
def setKey {α β : Type} [DecidableEq α] (k : α) (v : β) : List (α × β) → List (α × β)
  | [] => [(k, v)]
  | (k', v') :: rest => if k' = k then (k, v) :: rest else (k', v') :: setKey k v rest

/-- Deletion `del d[k]` on an insertion-ordered dictionary. -/
def delKey {α β : Type} [DecidableEq α] (k : α) : List (α × β) → List (α × β)
  | [] => []
  | (k', v') :: rest => if k' = k then rest else (k', v') :: delKey k rest

/-- The allocator state: `memory_blocks` maps each size class to its ordered
free-block sequence; `allocated_processes` maps each process id to the
`(block, size)` it holds (the Python dict value `{'block': b, 'size': s}`). -/
structure QuickFit where
  memory_blocks : List (Nat × List String)
  allocated_processes : List (String × String × Nat)
  deriving DecidableEq, Repr

/-- Result of `QuickFit.allocate`: the Python method returns
`(True, f"Process {pid} allocated to {block} ({size} KB).")` on success and
`(False, f"No exact block available for Process {pid} requiring {size} KB.")`
on failure; we record the success flag and the data the message carries. -/
inductive AllocResult where
  | ok (block : String) (process_id : String) (size : Nat)
  | noExactBlockAvailable (process_id : String) (size : Nat)
  deriving DecidableEq, Repr

/-- Result of `QuickFit.deallocate`: success reports
`f"Block {block} ({size} KB) deallocated."` for the given process, failure
reports `f"No allocation found for Process {pid}."`. -/
inductive DeallocResult where
  | ok (block : String) (size : Nat) (process_id : String)
  | noAllocationFound (process_id : String)
  deriving DecidableEq, Repr

def AllocResult.isOk : AllocResult → Bool
  | .ok .. => true
  | .noExactBlockAvailable .. => false

namespace QuickFit

/-- `QuickFit.allocate(process_id, size)`: if `size in self.memory_blocks and
self.memory_blocks[size]`, pop the first block of that class (in-place list
mutation, so the class keeps its dictionary position), bind the process to it,
and succeed; otherwise fail with no state change. -/
def allocate (st : QuickFit) (process_id : String) (size : Nat) :
    AllocResult × QuickFit :=
  match getKey size st.memory_blocks with
  | some (allocated_block :: restBlocks) =>
      (AllocResult.ok allocated_block process_id size,
       { memory_blocks := setKey size restBlocks st.memory_blocks,
         allocated_processes :=
           setKey process_id (allocated_block, size) st.allocated_processes })
  | _ => (AllocResult.noExactBlockAvailable process_id size, st)

/-- `QuickFit.deallocate(process_id)`: fail if the process has no binding;
otherwise append its block to the end of its size class's free list (creating
the class's entry at the end of the dictionary if absent), delete the binding,
and succeed. -/
def deallocate (st : QuickFit) (process_id : String) :
    DeallocResult × QuickFit :=
  match getKey process_id st.allocated_processes with
  | none => (DeallocResult.noAllocationFound process_id, st)
  | some (block_name, block_size) =>
      let memory_blocks' :=
        match getKey block_size st.memory_blocks with
        | some blocks => setKey block_size (blocks ++ [block_name]) st.memory_blocks
        | none => st.memory_blocks ++ [(block_size, [block_name])]
      (DeallocResult.ok block_name block_size process_id,
       { memory_blocks := memory_blocks',
         allocated_processes := delKey process_id st.allocated_processes })

/-- The content of `QuickFit.get_memory_state`'s report: the method renders,
in dictionary iteration order, every size class with its free-block list and
then every process binding with its block and size.  We keep the data the
text is built from, in the same order. -/
structure MemoryState where
  available : List (Nat × List String)
  allocated : List (String × String × Nat)
  deriving DecidableEq, Repr

/-- `QuickFit.get_memory_state()`: builds the report by reading
`self.memory_blocks` and `self.allocated_processes` in iteration order;
it writes nothing, so the state component is returned unchanged. -/
def get_memory_state (st : QuickFit) : MemoryState × QuickFit :=
  (⟨st.memory_blocks, st.allocated_processes⟩, st)

end QuickFit

/-- A call made against the allocator. -/
inductive Op where
  | alloc (process_id : String) (size : Nat)
  | dealloc (process_id : String)
  deriving DecidableEq, Repr

/-- The state reached after one call (results discarded). -/
def step (st : QuickFit) : Op → QuickFit
  | .alloc pid size => (st.allocate pid size).2
  | .dealloc pid => (st.deallocate pid).2

/-- The state reached after a sequence of calls. -/
def run (st : QuickFit) (ops : List Op) : QuickFit :=
  ops.foldl step st

/-- Sum of a value-weight over an association list's values. -/
def sumV {α β : Type} (f : β → Nat) (l : List (α × β)) : Nat :=
  (l.map (fun p => f p.2)).sum

/-- Number of occurrences of the name `b` in a list of block names. -/
def countName (b : String) (l : List String) : Nat :=
  (l.map (fun x => if x = b then 1 else 0)).sum

/-- Number of occurrences of block name `b` across all free sequences. -/
def freeCountL (b : String) (mb : List (Nat × List String)) : Nat :=
  sumV (countName b) mb

/-- Number of process bindings whose bound block is `b`. -/
def boundCountL (b : String) (ap : List (String × String × Nat)) : Nat :=
  sumV (fun v => if v.1 = b then 1 else 0) ap

/-- Total number of places block name `b` occurs in the whole state. -/
def occCount (b : String) (st : QuickFit) : Nat :=
  freeCountL b st.memory_blocks + boundCountL b st.allocated_processes

/-- A call is safe when, if it is an allocate that succeeds, its process id
was not already bound (re-allocation for a bound process orphans a block). -/
def safeStep (st : QuickFit) : Op → Bool
  | .alloc pid size =>
      !(st.allocate pid size).1.isOk || (getKey pid st.allocated_processes).isNone
  | .dealloc _ => true

/-- Every call of the sequence is safe in the state where it is made. -/
def safeRun : QuickFit → List Op → Bool
  | _, [] => true
  | st, op :: ops => safeStep st op && safeRun (step st op) ops

/-- The keys of an association list, in order. -/
def keysOf {α β : Type} (l : List (α × β)) : List α :=
  l.map Prod.fst

/-! ### Association-list lemmas -/

@[simp] theorem keysOf_nil {α β : Type} : keysOf ([] : List (α × β)) = [] := rfl

@[simp] theorem keysOf_cons {α β : Type} (p : α × β) (l : List (α × β)) :
    keysOf (p :: l) = p.1 :: keysOf l := rfl

theorem keysOf_append {α β : Type} (l l' : List (α × β)) :
    keysOf (l ++ l') = keysOf l ++ keysOf l' := by
  simp [keysOf]

theorem getKey_eq_none {α β : Type} [DecidableEq α] (k : α) (l : List (α × β)) :
    getKey k l = none ↔ k ∉ keysOf l := by
  induction l with
  | nil => simp [getKey]
  | cons p rest ih =>
      obtain ⟨k', v'⟩ := p
      by_cases h : k = k' <;> simp [getKey, h] at ih ⊢
      exact ih

theorem getKey_setKey_self {α β : Type} [DecidableEq α] (k : α) (v : β)
    (l : List (α × β)) : getKey k (setKey k v l) = some v := by
  induction l with
  | nil => simp [getKey, setKey]
  | cons p rest ih =>
      obtain ⟨k', v'⟩ := p
      by_cases h : k' = k
      · simp [setKey, h, getKey]
      · have h' : ¬k = k' := fun hh => h hh.symm
        simp [setKey, h, getKey, h', ih]

theorem getKey_setKey_ne {α β : Type} [DecidableEq α] {k k' : α} (v : β)
    (l : List (α × β)) (h : k' ≠ k) :
    getKey k' (setKey k v l) = getKey k' l := by
  induction l with
  | nil => simp [getKey, setKey, h]
  | cons p rest ih =>
      obtain ⟨k₀, v₀⟩ := p
      by_cases h0 : k₀ = k
      · subst h0
        simp [setKey, getKey, h, ih]
      · simp [setKey, h0, getKey, ih]

theorem setKey_absent {α β : Type} [DecidableEq α] {k : α} (v : β)
    {l : List (α × β)} (h : getKey k l = none) :
    setKey k v l = l ++ [(k, v)] := by
  induction l with
  | nil => simp [setKey]
  | cons p rest ih =>
      obtain ⟨k₀, v₀⟩ := p
      by_cases h0 : k = k₀
      · simp [getKey, h0] at h
      · simp [getKey, h0] at h
        have h0' : ¬k₀ = k := fun hh => h0 hh.symm
        simp [setKey, h0', ih h]

theorem getKey_delKey_ne {α β : Type} [DecidableEq α] {k k' : α}
    (l : List (α × β)) (h : k' ≠ k) :
    getKey k' (delKey k l) = getKey k' l := by
  induction l with
  | nil => simp [delKey]
  | cons p rest ih =>
      obtain ⟨k₀, v₀⟩ := p
      by_cases h0 : k₀ = k
      · subst h0
        simp [delKey, getKey, h, ih]
      · simp [delKey, h0, getKey, ih]

theorem getKey_delKey_self {α β : Type} [DecidableEq α] (k : α)
    {l : List (α × β)} (hnd : (keysOf l).Nodup) :
    getKey k (delKey k l) = none := by
  induction l with
  | nil => simp [delKey, getKey]
  | cons p rest ih =>
      obtain ⟨k₀, v₀⟩ := p
      simp only [keysOf_cons, List.nodup_cons] at hnd
      by_cases h0 : k₀ = k
      · subst h0
        simp [delKey]
        rw [getKey_eq_none]
        exact hnd.1
      · have h0' : ¬k = k₀ := fun hh => h0 hh.symm
        simp [delKey, h0, getKey, h0']
        exact ih hnd.2

theorem delKey_append {α β : Type} [DecidableEq α] {k : α} (v : β)
    {l : List (α × β)} (h : getKey k l = none) :
    delKey k (l ++ [(k, v)]) = l := by
  induction l with
  | nil => simp [delKey]
  | cons p rest ih =>
      obtain ⟨k₀, v₀⟩ := p
      by_cases h0 : k = k₀
      · simp [getKey, h0] at h
      · simp [getKey, h0] at h
        have h0' : ¬k₀ = k := fun hh => h0 hh.symm
        simp [delKey, h0', ih h]

theorem keysOf_setKey {α β : Type} [DecidableEq α] (k : α) (v : β)
    (l : List (α × β)) :
    keysOf (setKey k v l) = keysOf l ∨ keysOf (setKey k v l) = keysOf l ++ [k] := by
  induction l with
  | nil => simp [setKey]
  | cons p rest ih =>
      obtain ⟨k₀, v₀⟩ := p
      by_cases h0 : k₀ = k
      · left; simp [setKey, h0]
      · rcases ih with ih | ih
        · left; simp [setKey, h0, ih]
        · right; simp [setKey, h0, ih]

theorem sumV_setKey {α β : Type} [DecidableEq α] (f : β → Nat) {k : α}
    (v : β) {w : β} {l : List (α × β)} (h : getKey k l = some w) :
    sumV f (setKey k v l) + f w = sumV f l + f v := by
  induction l with
  | nil => simp [getKey] at h
  | cons p rest ih =>
      obtain ⟨k₀, v₀⟩ := p
      by_cases h0 : k = k₀
      · simp [getKey, h0] at h
        subst h
        simp [setKey, h0, sumV]
        omega
      · simp [getKey, h0] at h
        have h0' : ¬k₀ = k := fun hh => h0 hh.symm
        simp [setKey, h0', sumV] at ih ⊢
        have := ih h
        omega

theorem sumV_delKey {α β : Type} [DecidableEq α] (f : β → Nat) {k : α}
    {w : β} {l : List (α × β)} (h : getKey k l = some w) :
    sumV f (delKey k l) + f w = sumV f l := by
  induction l with
  | nil => simp [getKey] at h
  | cons p rest ih =>
      obtain ⟨k₀, v₀⟩ := p
      by_cases h0 : k = k₀
      · simp [getKey, h0] at h
        subst h
        simp [delKey, h0, sumV]
        omega
      · simp [getKey, h0] at h
        have h0' : ¬k₀ = k := fun hh => h0 hh.symm
        simp [delKey, h0', sumV] at ih ⊢
        have := ih h
        omega

theorem sumV_append {α β : Type} (f : β → Nat) (l : List (α × β)) (x : α × β) :
    sumV f (l ++ [x]) = sumV f l + f x.2 := by
  simp [sumV]

theorem getKey_le_sumV {α β : Type} [DecidableEq α] (f : β → Nat) {k : α}
    {w : β} {l : List (α × β)} (h : getKey k l = some w) :
    f w ≤ sumV f l := by
  induction l with
  | nil => simp [getKey] at h
  | cons p rest ih =>
      obtain ⟨k₀, v₀⟩ := p
      by_cases h0 : k = k₀
      · simp [getKey, h0] at h
        subst h
        simp [sumV]
      · simp [getKey, h0] at h
        simp [sumV] at ih ⊢
        have := ih h
        omega

/-! ### Claim theorems -/

/-- Claim C1: for every allocator state and every call `allocate(process_id,
size)`, if `size` is a known size class whose free sequence is non-empty,
`allocate` removes the first (oldest-inserted) block name from that sequence,
creates a binding `process_id → (block, size)`, and succeeds, reporting the
chosen block name, the process id, and the size.  (The seeded FIFO example —
class 50 seeded with Block1, Block2; P1 then P2 — is the witness.) -/
theorem C1_allocate_success (st : QuickFit) (process_id : String) (size : Nat)
    (b : String) (rest : List String)
    (h : getKey size st.memory_blocks = some (b :: rest)) :
    st.allocate process_id size =
      (AllocResult.ok b process_id size,
       { memory_blocks := setKey size rest st.memory_blocks,
         allocated_processes := setKey process_id (b, size) st.allocated_processes })
    ∧ getKey process_id (st.allocate process_id size).2.allocated_processes =
        some (b, size) := by
  constructor
  · simp [QuickFit.allocate, h]
  · simp [QuickFit.allocate, h, getKey_setKey_self]

/-- Witness for C1 at the spec's FIFO example: seeding class 50 with
`[Block1, Block2]` and allocating for P1 then P2 at size 50 yields Block1 to
P1 and Block2 to P2, in that order. -/
theorem C1_allocate_success_witness :
    QuickFit.allocate ⟨[(50, ["Block1", "Block2"])], []⟩ "P1" 50 =
      (AllocResult.ok "Block1" "P1" 50,
       ⟨[(50, ["Block2"])], [("P1", ("Block1", 50))]⟩)
    ∧ QuickFit.allocate ⟨[(50, ["Block2"])], [("P1", ("Block1", 50))]⟩ "P2" 50 =
      (AllocResult.ok "Block2" "P2" 50,
       ⟨[(50, ([] : List String))], [("P1", ("Block1", 50)), ("P2", ("Block2", 50))]⟩) := by
  constructor
  · exact (C1_allocate_success ⟨[(50, ["Block1", "Block2"])], []⟩ "P1" 50
      "Block1" ["Block2"] rfl).1
  · exact (C1_allocate_success ⟨[(50, ["Block2"])], [("P1", ("Block1", 50))]⟩ "P2" 50
      "Block2" [] rfl).1

/-- Claim C2: for every allocator state and every call `allocate(process_id,
size)` where the size class is unknown or its free sequence is empty,
`allocate` fails with `NoExactBlockAvailable`, reporting the requested process
id and size, and the state is completely unchanged — in particular a failing
allocate for an unseeded class does not create that size class. -/
theorem C2_allocate_failure (st : QuickFit) (process_id : String) (size : Nat)
    (h : getKey size st.memory_blocks = none ∨
         getKey size st.memory_blocks = some []) :
    st.allocate process_id size =
      (AllocResult.noExactBlockAvailable process_id size, st) := by
  rcases h with h | h <;> simp [QuickFit.allocate, h]

/-- Witness for C2: on the program's initial seed (classes 50, 100, 200),
`allocate("P1", 999)` fails with `NoExactBlockAvailable` and the state — in
particular the set of size classes — is unchanged. -/
theorem C2_allocate_failure_witness :
    QuickFit.allocate
      ⟨[(50, ["Block1", "Block2"]), (100, ["Block3", "Block4"]), (200, ["Block5"])], []⟩
      "P1" 999 =
      (AllocResult.noExactBlockAvailable "P1" 999,
       ⟨[(50, ["Block1", "Block2"]), (100, ["Block3", "Block4"]), (200, ["Block5"])], []⟩) :=
  C2_allocate_failure
    ⟨[(50, ["Block1", "Block2"]), (100, ["Block3", "Block4"]), (200, ["Block5"])], []⟩
    "P1" 999 (Or.inl rfl)

/-- Claim C3: for every allocator state in which `process_id` has a binding to
`(block, size)`, `deallocate(process_id)` appends the block name to the end of
that size class's free sequence (creating the size class entry at the end of
the dictionary if it does not yet exist), removes the binding, and succeeds
reporting the block name, the size class, and the process id.  The
no-duplicate-keys hypothesis holds for every state built by the class, whose
binding table is a Python dict. -/
theorem C3_deallocate_success (st : QuickFit) (process_id b : String) (s : Nat)
    (hnd : (keysOf st.allocated_processes).Nodup)
    (h : getKey process_id st.allocated_processes = some (b, s)) :
    (st.deallocate process_id).1 = DeallocResult.ok b s process_id
    ∧ (st.deallocate process_id).2.allocated_processes =
        delKey process_id st.allocated_processes
    ∧ getKey process_id (st.deallocate process_id).2.allocated_processes = none
    ∧ (∀ blocks, getKey s st.memory_blocks = some blocks →
        (st.deallocate process_id).2.memory_blocks =
          setKey s (blocks ++ [b]) st.memory_blocks)
    ∧ (getKey s st.memory_blocks = none →
        (st.deallocate process_id).2.memory_blocks =
          st.memory_blocks ++ [(s, [b])]) := by
  refine ⟨?_, ?_, ?_, ?_, ?_⟩
  · cases hm : getKey s st.memory_blocks <;> simp [QuickFit.deallocate, h, hm]
  · cases hm : getKey s st.memory_blocks <;> simp [QuickFit.deallocate, h, hm]
  · cases hm : getKey s st.memory_blocks <;>
      simp [QuickFit.deallocate, h, hm, getKey_delKey_self _ hnd]
  · intro blocks hm
    simp [QuickFit.deallocate, h, hm]
  · intro hm
    simp [QuickFit.deallocate, h, hm]

/-- Witness for C3: with P1 bound to Block3 of class 100 and class 100's free
sequence empty, `deallocate("P1")` reports `(Block3, 100, P1)`, appends Block3
at the end of class 100's sequence, and removes the binding. -/
theorem C3_deallocate_success_witness :
    (QuickFit.deallocate ⟨[(100, ([] : List String))], [("P1", ("Block3", 100))]⟩ "P1").1 =
      DeallocResult.ok "Block3" 100 "P1"
    ∧ (QuickFit.deallocate ⟨[(100, ([] : List String))], [("P1", ("Block3", 100))]⟩ "P1").2.memory_blocks =
      [(100, ["Block3"])]
    ∧ getKey "P1"
        (QuickFit.deallocate ⟨[(100, ([] : List String))], [("P1", ("Block3", 100))]⟩ "P1").2.allocated_processes =
      none := by
  have h := C3_deallocate_success ⟨[(100, ([] : List String))], [("P1", ("Block3", 100))]⟩
    "P1" "Block3" 100 (by decide) rfl
  refine ⟨h.1, ?_, h.2.2.1⟩
  rw [h.2.2.2.1 [] rfl]
  decide

/-- Claim C4: for every allocator state in which `process_id` has no binding,
`deallocate(process_id)` fails with `NoAllocationFound`, reporting the process
id, and the state is unchanged; and after a successful `deallocate(p)`, an
immediately repeated `deallocate(p)` fails with `NoAllocationFound` leaving
the state unchanged. -/
theorem C4_deallocate_failure (st : QuickFit) (process_id : String) :
    (getKey process_id st.allocated_processes = none →
      st.deallocate process_id =
        (DeallocResult.noAllocationFound process_id, st))
    ∧ (∀ b s, (keysOf st.allocated_processes).Nodup →
        getKey process_id st.allocated_processes = some (b, s) →
        (st.deallocate process_id).2.deallocate process_id =
          (DeallocResult.noAllocationFound process_id,
           (st.deallocate process_id).2)) := by
  constructor
  · intro h
    simp [QuickFit.deallocate, h]
  · intro b s hnd h
    have h2 : getKey process_id
        (st.deallocate process_id).2.allocated_processes = none := by
      cases hm : getKey s st.memory_blocks <;>
        simp [QuickFit.deallocate, h, hm, getKey_delKey_self _ hnd]
    generalize (st.deallocate process_id).2 = st' at h2 ⊢
    simp [QuickFit.deallocate, h2]

/-- Witness for C4: `deallocate("P1")` on an empty allocator fails with
`NoAllocationFound` and changes nothing; and after deallocating P1's binding,
a second `deallocate("P1")` fails with `NoAllocationFound`. -/
theorem C4_deallocate_failure_witness :
    QuickFit.deallocate ⟨[], []⟩ "P1" =
      (DeallocResult.noAllocationFound "P1", ⟨[], []⟩)
    ∧ (QuickFit.deallocate
        (QuickFit.deallocate ⟨[], [("P1", ("Block1", 50))]⟩ "P1").2 "P1") =
      (DeallocResult.noAllocationFound "P1",
       (QuickFit.deallocate ⟨[], [("P1", ("Block1", 50))]⟩ "P1").2) :=
  ⟨(C4_deallocate_failure ⟨[], []⟩ "P1").1 rfl,
   (C4_deallocate_failure ⟨[], [("P1", ("Block1", 50))]⟩ "P1").2 "Block1" 50
     (by decide) rfl⟩

/-! ### Block-conservation machinery (C5, C6) -/

@[simp] theorem countName_nil (b : String) : countName b [] = 0 := rfl

@[simp] theorem countName_cons (b x : String) (l : List String) :
    countName b (x :: l) = (if x = b then 1 else 0) + countName b l := by
  simp [countName]

theorem countName_append (b : String) (l l' : List String) :
    countName b (l ++ l') = countName b l + countName b l' := by
  simp [countName]

/-- A safe call never changes the total number of occurrences of any block
name: allocate moves the popped block from a free sequence into a (fresh)
binding, deallocate moves it back. -/
theorem occCount_step (st : QuickFit) (op : Op) (hs : safeStep st op = true)
    (b : String) : occCount b (step st op) = occCount b st := by
  cases op with
  | alloc pid size =>
      cases hm : getKey size st.memory_blocks with
      | none => simp [step, QuickFit.allocate, hm]
      | some blocks =>
          cases blocks with
          | nil => simp [step, QuickFit.allocate, hm]
          | cons b0 rest =>
              have hok : (st.allocate pid size).1.isOk = true := by
                simp [QuickFit.allocate, hm, AllocResult.isOk]
              have hnone : getKey pid st.allocated_processes = none := by
                simp [safeStep, hok] at hs
                cases hx : getKey pid st.allocated_processes <;>
                  simp [hx] at hs ⊢
              have hst : step st (Op.alloc pid size) =
                  ⟨setKey size rest st.memory_blocks,
                   setKey pid (b0, size) st.allocated_processes⟩ := by
                simp [step, QuickFit.allocate, hm]
              rw [hst]
              have hfree := sumV_setKey (countName b) rest hm
              have hbound : boundCountL b
                  (setKey pid (b0, size) st.allocated_processes) =
                  boundCountL b st.allocated_processes +
                    (if b0 = b then 1 else 0) := by
                rw [boundCountL, setKey_absent _ hnone, sumV_append]
                rfl
              simp only [occCount, freeCountL] at *
              rw [hbound]
              simp only [countName_cons] at hfree
              by_cases hb : b0 = b <;> simp [hb] at hfree hbound ⊢ <;> omega
  | dealloc pid =>
      cases hp : getKey pid st.allocated_processes with
      | none => simp [step, QuickFit.deallocate, hp]
      | some v =>
          obtain ⟨b0, s⟩ := v
          have hbound := sumV_delKey
            (fun v : String × Nat => if v.1 = b then 1 else 0) hp
          cases hm : getKey s st.memory_blocks with
          | some blocks =>
              have hst : step st (Op.dealloc pid) =
                  ⟨setKey s (blocks ++ [b0]) st.memory_blocks,
                   delKey pid st.allocated_processes⟩ := by
                simp [step, QuickFit.deallocate, hp, hm]
              rw [hst]
              have hfree := sumV_setKey (countName b) (blocks ++ [b0]) hm
              rw [countName_append] at hfree
              simp only [occCount, freeCountL, boundCountL] at *
              by_cases hb : b0 = b <;>
                simp [hb] at hfree hbound ⊢ <;> omega
          | none =>
              have hst : step st (Op.dealloc pid) =
                  ⟨st.memory_blocks ++ [(s, [b0])],
                   delKey pid st.allocated_processes⟩ := by
                simp [step, QuickFit.deallocate, hp, hm]
              rw [hst]
              have hfree := sumV_append (countName b) st.memory_blocks (s, [b0])
              simp only [occCount, freeCountL, boundCountL] at *
              by_cases hb : b0 = b <;>
                simp [hb] at hfree hbound ⊢ <;> omega

/-- Over a safe call sequence the total occurrence count of every block name
is preserved. -/
theorem occCount_run (st : QuickFit) (ops : List Op)
    (hs : safeRun st ops = true) (b : String) :
    occCount b (run st ops) = occCount b st := by
  induction ops generalizing st with
  | nil => simp [run]
  | cons op ops ih =>
      simp only [safeRun, Bool.and_eq_true] at hs
      have h1 := occCount_step st op hs.1 b
      have h2 := ih (step st op) hs.2
      simp only [run, List.foldl_cons] at h2 ⊢
      rw [h2, h1]

/-- Claim C5 is false on the code as stated: seeding class 50 with
`[Block1, Block2]` (Block1 introduced exactly once) and then calling
`allocate("P1", 50)` twice without an intervening deallocate leaves Block1 in
no free sequence and no binding — it appears in zero locations, not exactly
one.  The second allocate overwrites P1's binding and orphans Block1. -/
theorem C5_counterexample :
    occCount "Block1" (⟨[(50, ["Block1", "Block2"])], []⟩ : QuickFit) = 1
    ∧ occCount "Block1"
        (run ⟨[(50, ["Block1", "Block2"])], []⟩
          [Op.alloc "P1" 50, Op.alloc "P1" 50]) = 0 := by
  decide

/-- Claim C5 (amended): for every initial state and every sequence of
allocate/deallocate calls in which no successful allocate is made for a
process id that is already bound, every block name that occurs exactly once
in the initial state still occurs in exactly one location afterwards —
either in one free sequence or in one binding, never both, never duplicated,
never missing. -/
theorem C5_block_conservation (st : QuickFit) (ops : List Op) (b : String)
    (hsafe : safeRun st ops = true) (hb : occCount b st = 1) :
    occCount b (run st ops) = 1 := by
  rw [occCount_run st ops hsafe b, hb]

/-- Witness for the amended C5: seed class 50 with Block1, Block2, then
allocate P1, deallocate P1, allocate P2 — a safe sequence — and Block1 still
occurs in exactly one location. -/
theorem C5_block_conservation_witness :
    safeRun ⟨[(50, ["Block1", "Block2"])], []⟩
      [Op.alloc "P1" 50, Op.dealloc "P1", Op.alloc "P2" 50] = true
    ∧ occCount "Block1"
        (run ⟨[(50, ["Block1", "Block2"])], []⟩
          [Op.alloc "P1" 50, Op.dealloc "P1", Op.alloc "P2" 50]) = 1 :=
  ⟨by decide,
   C5_block_conservation ⟨[(50, ["Block1", "Block2"])], []⟩
     [Op.alloc "P1" 50, Op.dealloc "P1", Op.alloc "P2" 50] "Block1"
     (by decide) (by decide)⟩

/-- Claim C6: if process `pid` is already bound to block `b` (its only
occurrence in bindings) and `b` is in no free sequence, and size class `size`
has a non-empty free sequence, then a second successful
`allocate(pid, size)` pops the head block `b0`, overwrites `pid`'s binding
with it, and orphans `b`: afterwards `b` occurs in no free sequence and in
no binding. -/
theorem C6_reallocate_orphans (st : QuickFit) (pid b b0 : String)
    (s' size : Nat) (rest : List String)
    (hbind : getKey pid st.allocated_processes = some (b, s'))
    (hm : getKey size st.memory_blocks = some (b0 :: rest))
    (hfree : freeCountL b st.memory_blocks = 0)
    (hbound : boundCountL b st.allocated_processes = 1) :
    (st.allocate pid size).1 = AllocResult.ok b0 pid size
    ∧ getKey pid (st.allocate pid size).2.allocated_processes = some (b0, size)
    ∧ occCount b (st.allocate pid size).2 = 0 := by
  have hcnt : countName b (b0 :: rest) = 0 := by
    have hle := getKey_le_sumV (countName b) hm
    rw [freeCountL] at hfree
    omega
  have hb0 : ¬b0 = b := by
    simp only [countName_cons] at hcnt
    by_cases hx : b0 = b <;> simp [hx] at hcnt ⊢
  have hst : st.allocate pid size =
      (AllocResult.ok b0 pid size,
       ⟨setKey size rest st.memory_blocks,
        setKey pid (b0, size) st.allocated_processes⟩) := by
    simp [QuickFit.allocate, hm]
  refine ⟨by rw [hst], by rw [hst]; exact getKey_setKey_self _ _ _, ?_⟩
  rw [hst]
  have hfree' := sumV_setKey (countName b) rest hm
  have hbound' := sumV_setKey
    (fun v : String × Nat => if v.1 = b then 1 else 0) (b0, size) hbind
  simp only [countName_cons, hb0, if_neg, if_pos] at hcnt hfree' hbound'
  simp only [occCount, freeCountL, boundCountL] at *
  simp [hb0] at hbound'
  omega

/-- Witness for C6: with P1 bound to Block1 (class 50 holding only Block2),
re-allocating P1 at size 50 binds P1 to Block2 and leaves Block1 nowhere. -/
theorem C6_reallocate_orphans_witness :
    (QuickFit.allocate ⟨[(50, ["Block2"])], [("P1", ("Block1", 50))]⟩ "P1" 50).1 =
      AllocResult.ok "Block2" "P1" 50
    ∧ getKey "P1"
        (QuickFit.allocate ⟨[(50, ["Block2"])], [("P1", ("Block1", 50))]⟩ "P1" 50).2.allocated_processes =
      some ("Block2", 50)
    ∧ occCount "Block1"
        (QuickFit.allocate ⟨[(50, ["Block2"])], [("P1", ("Block1", 50))]⟩ "P1" 50).2 = 0 :=
  C6_reallocate_orphans ⟨[(50, ["Block2"])], [("P1", ("Block1", 50))]⟩
    "P1" "Block1" "Block2" 50 50 [] rfl rfl (by decide) (by decide)

/-- `allocate(p2, s)` returns a given block `b` exactly when `b` is the head
(oldest entry) of class `s`'s free sequence. -/
theorem allocate_head_iff (st : QuickFit) (p2 b : String) (s : Nat)
    (l : List String) (h : getKey s st.memory_blocks = some l) :
    ((st.allocate p2 s).1 = AllocResult.ok b p2 s ↔ l.head? = some b) := by
  cases l with
  | nil => simp [QuickFit.allocate, h]
  | cons x xs =>
      simp only [QuickFit.allocate, h, List.head?_cons, Option.some.injEq,
        AllocResult.ok.injEq]
      constructor
      · intro hh
        exact hh.1
      · intro hh
        exact ⟨hh, trivial, trivial⟩

/-- Claim C7: allocate then immediate deallocate round-trips.  For a fresh
process `pid` allocated block `b` from class `s` (head of `b :: rest`),
`deallocate(pid)` succeeds reporting `(b, s, pid)`, restores the binding
table, and appends `b` at the end of class `s`'s free sequence; afterwards
`allocate(p2, s)` for any process `p2` returns `b` exactly when `b` is then
the oldest (head) entry of class `s`'s free sequence. -/
theorem C7_round_trip (st : QuickFit) (pid : String) (s : Nat) (b : String)
    (rest : List String)
    (hm : getKey s st.memory_blocks = some (b :: rest))
    (hfresh : getKey pid st.allocated_processes = none) :
    (st.allocate pid s).1 = AllocResult.ok b pid s
    ∧ ((st.allocate pid s).2.deallocate pid).1 = DeallocResult.ok b s pid
    ∧ ((st.allocate pid s).2.deallocate pid).2.allocated_processes =
        st.allocated_processes
    ∧ getKey s ((st.allocate pid s).2.deallocate pid).2.memory_blocks =
        some (rest ++ [b])
    ∧ (∀ p2, (((st.allocate pid s).2.deallocate pid).2.allocate p2 s).1 =
          AllocResult.ok b p2 s ↔ (rest ++ [b]).head? = some b) := by
  have h1 : st.allocate pid s =
      (AllocResult.ok b pid s,
       ⟨setKey s rest st.memory_blocks,
        setKey pid (b, s) st.allocated_processes⟩) := by
    simp [QuickFit.allocate, hm]
  have hap1 : getKey pid (setKey pid (b, s) st.allocated_processes) =
      some (b, s) := getKey_setKey_self _ _ _
  have hmb1 : getKey s (setKey s rest st.memory_blocks) = some rest :=
    getKey_setKey_self _ _ _
  have h2 : QuickFit.deallocate
      ⟨setKey s rest st.memory_blocks, setKey pid (b, s) st.allocated_processes⟩
      pid =
      (DeallocResult.ok b s pid,
       ⟨setKey s (rest ++ [b]) (setKey s rest st.memory_blocks),
        delKey pid (setKey pid (b, s) st.allocated_processes)⟩) := by
    simp [QuickFit.deallocate, hap1, hmb1]
  have hap2 : delKey pid (setKey pid (b, s) st.allocated_processes) =
      st.allocated_processes := by
    rw [setKey_absent _ hfresh, delKey_append _ hfresh]
  have hmb2 : getKey s (setKey s (rest ++ [b]) (setKey s rest st.memory_blocks)) =
      some (rest ++ [b]) := getKey_setKey_self _ _ _
  rw [h1]
  refine ⟨rfl, ?_, ?_, ?_, ?_⟩
  · simp [h2]
  · simp [h2, hap2]
  · simp [h2, hmb2]
  · intro p2
    simp only [h2]
    exact allocate_head_iff _ p2 b s (rest ++ [b]) hmb2

/-- Witness for C7 with the seeded example: class 50 holding Block1, Block2;
P1 allocates (gets Block1), immediately deallocates; Block1 is re-appended
behind Block2, so a fresh allocate for P2 does not return Block1 (it is not
the oldest entry). -/
theorem C7_round_trip_witness :
    (QuickFit.allocate ⟨[(50, ["Block1", "Block2"])], []⟩ "P1" 50).1 =
      AllocResult.ok "Block1" "P1" 50
    ∧ ((QuickFit.allocate ⟨[(50, ["Block1", "Block2"])], []⟩ "P1" 50).2.deallocate "P1").1 =
      DeallocResult.ok "Block1" 50 "P1"
    ∧ ((QuickFit.allocate ⟨[(50, ["Block1", "Block2"])], []⟩ "P1" 50).2.deallocate "P1").2.allocated_processes = []
    ∧ getKey 50 ((QuickFit.allocate ⟨[(50, ["Block1", "Block2"])], []⟩ "P1" 50).2.deallocate "P1").2.memory_blocks =
      some ["Block2", "Block1"]
    ∧ ((((QuickFit.allocate ⟨[(50, ["Block1", "Block2"])], []⟩ "P1" 50).2.deallocate "P1").2.allocate "P2" 50).1 =
        AllocResult.ok "Block1" "P2" 50 ↔ (["Block2", "Block1"] : List String).head? = some "Block1") := by
  have h := C7_round_trip ⟨[(50, ["Block1", "Block2"])], []⟩ "P1" 50 "Block1"
    ["Block2"] rfl rfl
  exact ⟨h.1, h.2.1, h.2.2.1, h.2.2.2.1, h.2.2.2.2 "P2"⟩

/-! ### Snapshot and frame properties (C8, C9, C10) -/

/-- Claim C8: `get_memory_state` leaves the size-class pools and the binding
map completely unchanged, never fails (it is total), and is deterministic:
two consecutive snapshot calls with no intervening allocate or deallocate
return identical reports. -/
theorem C8_snapshot_pure (st : QuickFit) :
    (st.get_memory_state).2 = st
    ∧ ((st.get_memory_state).2.get_memory_state).1 = (st.get_memory_state).1 :=
  ⟨rfl, rfl⟩

theorem getKey_append_ne {α β : Type} [DecidableEq α] {k k' : α} (v : β)
    (l : List (α × β)) (h : k' ≠ k) :
    getKey k' (l ++ [(k, v)]) = getKey k' l := by
  induction l with
  | nil => simp [getKey, h]
  | cons p rest ih =>
      obtain ⟨k₀, v₀⟩ := p
      by_cases h0 : k' = k₀ <;> simp [getKey, h0, ih]

theorem getKey_append_self {α β : Type} [DecidableEq α] {k : α} (v : β)
    {l : List (α × β)} (h : getKey k l = none) :
    getKey k (l ++ [(k, v)]) = some v := by
  induction l with
  | nil => simp [getKey]
  | cons p rest ih =>
      obtain ⟨k₀, v₀⟩ := p
      by_cases h0 : k = k₀
      · simp [getKey, h0] at h
      · simp [getKey, h0] at h
        simp [getKey, h0, ih h]

/-- One call either leaves the list of size-class keys unchanged or appends a
single new class at the end (deallocate into a previously-unseen class). -/
theorem keysOf_step (st : QuickFit) (op : Op) :
    keysOf (step st op).memory_blocks = keysOf st.memory_blocks
    ∨ ∃ k, keysOf (step st op).memory_blocks = keysOf st.memory_blocks ++ [k] := by
  cases op with
  | alloc pid size =>
      cases hm : getKey size st.memory_blocks with
      | none => left; simp [step, QuickFit.allocate, hm]
      | some blocks =>
          cases blocks with
          | nil => left; simp [step, QuickFit.allocate, hm]
          | cons b0 rest =>
              have hst : (step st (Op.alloc pid size)).memory_blocks =
                  setKey size rest st.memory_blocks := by
                simp [step, QuickFit.allocate, hm]
              rw [hst]
              rcases keysOf_setKey size rest st.memory_blocks with h | h
              · exact Or.inl h
              · exact Or.inr ⟨size, h⟩
  | dealloc pid =>
      cases hp : getKey pid st.allocated_processes with
      | none => left; simp [step, QuickFit.deallocate, hp]
      | some v =>
          obtain ⟨b0, s⟩ := v
          cases hm : getKey s st.memory_blocks with
          | some blocks =>
              have hst : (step st (Op.dealloc pid)).memory_blocks =
                  setKey s (blocks ++ [b0]) st.memory_blocks := by
                simp [step, QuickFit.deallocate, hp, hm]
              rw [hst]
              rcases keysOf_setKey s (blocks ++ [b0]) st.memory_blocks with h | h
              · exact Or.inl h
              · exact Or.inr ⟨s, h⟩
          | none =>
              right
              refine ⟨s, ?_⟩
              have hst : (step st (Op.dealloc pid)).memory_blocks =
                  st.memory_blocks ++ [(s, [b0])] := by
                simp [step, QuickFit.deallocate, hp, hm]
              rw [hst, keysOf_append]
              rfl

/-- Over any call sequence the initial size classes stay, in their original
order, as the front of the class list; lazily-created classes only ever
extend it at the end. -/
theorem keysOf_run (st : QuickFit) (ops : List Op) :
    ∃ tail, keysOf (run st ops).memory_blocks =
      keysOf st.memory_blocks ++ tail := by
  induction ops generalizing st with
  | nil => exact ⟨[], by simp [run]⟩
  | cons op ops ih =>
      obtain ⟨tail, htail⟩ := ih (step st op)
      rcases keysOf_step st op with h | ⟨k, h⟩
      · refine ⟨tail, ?_⟩
        simp only [run, List.foldl_cons] at htail ⊢
        rw [htail, h]
      · refine ⟨k :: tail, ?_⟩
        simp only [run, List.foldl_cons] at htail ⊢
        rw [htail, h, List.append_assoc]
        rfl

/-- Claim C9: the snapshot lists every size class with its current free
sequence — empty ones included — in the order the state holds them, and every
binding in binding order; and that state order is first-introduction order:
each call leaves the class list unchanged or appends one new class at the
end, so after any run from a seed the seed classes head the list in seed
order, followed by lazily-created classes in creation order. -/
theorem C9_snapshot_order (st : QuickFit) (ops : List Op) :
    (st.get_memory_state).1.available = st.memory_blocks
    ∧ (st.get_memory_state).1.allocated = st.allocated_processes
    ∧ (∀ op, keysOf (step st op).memory_blocks = keysOf st.memory_blocks
        ∨ ∃ k, keysOf (step st op).memory_blocks =
            keysOf st.memory_blocks ++ [k])
    ∧ ∃ tail, keysOf ((run st ops).get_memory_state).1.available =
        keysOf st.memory_blocks ++ tail :=
  ⟨rfl, rfl, keysOf_step st, keysOf_run st ops⟩

/-- Claim C10: a successful allocate pops exactly one block from the front of
the requested class and adds/overwrites exactly the caller's binding; every
other class and every other process's binding read unchanged.  Symmetrically a
successful deallocate appends exactly one block at the end of the bound
class's sequence (creating the class if absent) and removes only the caller's
binding. -/
theorem C10_frame (st : QuickFit) (pid : String) (size : Nat) :
    (∀ b rest, getKey size st.memory_blocks = some (b :: rest) →
      getKey size (st.allocate pid size).2.memory_blocks = some rest
      ∧ (∀ s', s' ≠ size →
          getKey s' (st.allocate pid size).2.memory_blocks =
            getKey s' st.memory_blocks)
      ∧ getKey pid (st.allocate pid size).2.allocated_processes =
          some (b, size)
      ∧ (∀ p', p' ≠ pid →
          getKey p' (st.allocate pid size).2.allocated_processes =
            getKey p' st.allocated_processes))
    ∧ (∀ b s, getKey pid st.allocated_processes = some (b, s) →
      (∀ p', p' ≠ pid →
          getKey p' (st.deallocate pid).2.allocated_processes =
            getKey p' st.allocated_processes)
      ∧ (∀ s', s' ≠ s →
          getKey s' (st.deallocate pid).2.memory_blocks =
            getKey s' st.memory_blocks)
      ∧ (∀ blocks, getKey s st.memory_blocks = some blocks →
          getKey s (st.deallocate pid).2.memory_blocks =
            some (blocks ++ [b]))
      ∧ (getKey s st.memory_blocks = none →
          getKey s (st.deallocate pid).2.memory_blocks = some [b])) := by
  constructor
  · intro b rest hm
    have hst : st.allocate pid size =
        (AllocResult.ok b pid size,
         ⟨setKey size rest st.memory_blocks,
          setKey pid (b, size) st.allocated_processes⟩) := by
      simp [QuickFit.allocate, hm]
    rw [hst]
    exact ⟨getKey_setKey_self _ _ _,
      fun s' hs' => getKey_setKey_ne _ _ hs',
      getKey_setKey_self _ _ _,
      fun p' hp' => getKey_setKey_ne _ _ hp'⟩
  · intro b s hp
    refine ⟨?_, ?_, ?_, ?_⟩
    · intro p' hp'
      cases hm : getKey s st.memory_blocks <;>
        simp [QuickFit.deallocate, hp, hm, getKey_delKey_ne _ hp']
    · intro s' hs'
      cases hm : getKey s st.memory_blocks with
      | none =>
          simp [QuickFit.deallocate, hp, hm, getKey_append_ne _ _ hs']
      | some blocks =>
          simp [QuickFit.deallocate, hp, hm, getKey_setKey_ne _ _ hs']
    · intro blocks hm
      simp [QuickFit.deallocate, hp, hm, getKey_setKey_self]
    · intro hm
      simp [QuickFit.deallocate, hp, hm, getKey_append_self _ hm]

/-- Witness for C10 on a two-class state: allocating P2 from class 50 leaves
class 100 and P1's binding untouched; deallocating P1 (bound to Block9 of
unseeded class 200) creates class 200 at the end, leaves classes 50 and 100
and other bindings untouched. -/
theorem C10_frame_witness :
    getKey 100 (QuickFit.allocate
        ⟨[(50, ["Block1"]), (100, ["Block3"])], [("P1", ("Block9", 200))]⟩
        "P2" 50).2.memory_blocks = some ["Block3"]
    ∧ getKey "P1" (QuickFit.allocate
        ⟨[(50, ["Block1"]), (100, ["Block3"])], [("P1", ("Block9", 200))]⟩
        "P2" 50).2.allocated_processes = some ("Block9", 200)
    ∧ getKey 200 (QuickFit.deallocate
        ⟨[(50, ["Block1"]), (100, ["Block3"])], [("P1", ("Block9", 200))]⟩
        "P1").2.memory_blocks = some ["Block9"]
    ∧ getKey 50 (QuickFit.deallocate
        ⟨[(50, ["Block1"]), (100, ["Block3"])], [("P1", ("Block9", 200))]⟩
        "P1").2.memory_blocks = some ["Block1"] := by
  have h := C10_frame
    ⟨[(50, ["Block1"]), (100, ["Block3"])], [("P1", ("Block9", 200))]⟩ "P2" 50
  have h2 := C10_frame
    ⟨[(50, ["Block1"]), (100, ["Block3"])], [("P1", ("Block9", 200))]⟩ "P1" 50
  have ha := h.1 "Block1" [] rfl
  have hd := h2.2 "Block9" 200 rfl
  exact ⟨(ha.2.1 100 (by decide)).trans rfl,
    (ha.2.2.2 "P1" (by decide)).trans rfl,
    hd.2.2.2 rfl,
    (hd.2.1 50 (by decide)).trans rfl⟩
